import Mathlib

/-!
Verification of `tree64.c`: ranked-tree representation over 64-bit
descendant-set masks, the `rank` lookup helper, the RNNI distance
algorithm `t64_rnni_distance`, and the random ranked-tree generator
`t64_random`.

Machine integers (`uint64_t`) are embedded as `Nat`; wrap-around
arithmetic is made explicit with `% 2 ^ 64` where the C code can wrap.
Fatal process termination (`err`/`errx`) is embedded as `Option`:
`none` is the fatal path.  A tree with `n` leaves is a `List Nat` of
the `n - 1` internal-node masks, indexed by rank.
-/

namespace Tree64

/-- The modulus of `uint64_t` arithmetic. -/
def two64 : Nat := 2 ^ 64

/-- `uint64_t` addition `a + b` (wraps modulo `2 ^ 64`). -/
def add64 (a b : Nat) : Nat := (a + b) % two64

/-- `uint64_t` subtraction `a - b` (wraps modulo `2 ^ 64`); faithful for
operand values below `2 ^ 64`. -/
def sub64 (a b : Nat) : Nat := (two64 + a - b) % two64

/-- Number of set bits among the low `n` bits of `x`. -/
def bitCard (n x : Nat) : Nat :=
  ((Finset.range n).filter fun t => x.testBit t = true).card

/-- Number of set bits among the low 64 bits: `__builtin_popcountll`,
faithful for values below `2 ^ 64`. -/
def popcount64 (x : Nat) : Nat := bitCard 64 x

/-- The scan of `rank`: probe indices `i, i+1, ...` for `fuel` steps,
returning the first index whose entry `v[i]` satisfies `(v[i] & x) == x`. -/
def rankAux (v : List Nat) (x : Nat) : Nat → Nat → Option Nat
  | 0, _ => none
  | fuel + 1, i => if v.getD i 0 &&& x = x then some i else rankAux v x fuel (i + 1)

/-- `rank(n, v, x)` from `tree64.c`: smallest `i` in `[0, n-2]` with
`(v[i] & x) == x`; the fatal `errx` branch is `none`. -/
def rank (n : Nat) (v : List Nat) (x : Nat) : Option Nat :=
  rankAux v x (n - 1) 0

/-- The descending child scan of the nested case of `t64_rnni_distance`:
`for (j = r-1; j <= r-1; j--) { x = T1[j]; if ((u & x) == x) break; }`.
The argument is the count of indices still to probe, so a call with `r`
probes `j = r-1, r-2, ..., 0`; exhaustion is the fatal `errx` branch. -/
def findx (T1 : List Nat) (u : Nat) : Nat → Option Nat
  | 0 => none
  | j + 1 =>
    if u &&& T1.getD j 0 = T1.getD j 0 then some (T1.getD j 0)
    else findx T1 u j

/-- One body of the `while (r > i)` loop of `t64_rnni_distance` (lines
59-96): the elementary move applied to the working copy `T1` at the
adjacent rank pair `r`, `r-1`.  `Ri` is `R[i]`.  `none` is the fatal
`errx` branch of the child scan. -/
def t64_move (Ri r : Nat) (T1 : List Nat) : Option (List Nat) :=
  let v := T1.getD r 0
  let u := T1.getD (r - 1) 0
  if v &&& u ≠ 0 then
    match (if popcount64 u = 2 then some (u &&& (two64 - u)) else findx T1 u r) with
    | none => none
    | some x =>
      let y := sub64 u x
      let w := sub64 v u
      if Ri &&& add64 x w = add64 x w then some (T1.set (r - 1) (add64 x w))
      else some (T1.set (r - 1) (add64 y w))
  else
    some ((T1.set r u).set (r - 1) v)

/-- The `while (r > i)` loop of `t64_rnni_distance`, with explicit fuel:
each iteration applies one elementary move, increments the move counter
`d` and decrements `r`.  Results: `none` is fuel exhaustion (never
reached when `fuel ≥ r - i`, proved below), `some none` is the fatal
branch, `some (some (T1, d))` is normal exit with `r ≤ i`. -/
def innerF (Ri i : Nat) : Nat → Nat → List Nat → Nat → Option (Option (List Nat × Nat))
  | 0, r, T1, d => if i < r then none else some (some (T1, d))
  | fuel + 1, r, T1, d =>
    if i < r then
      match t64_move Ri r T1 with
      | none => some none
      | some T1' => innerF Ri i fuel (r - 1) T1' (d + 1)
    else some (some (T1, d))

/-- The outer `for (i = n-2; i < n-1; i--)` loop of `t64_rnni_distance`.
The counter argument is `i + 1`, so a call with `n - 1` visits
`i = n-2, ..., 1, 0` exactly as the (wrap-around) C loop does.  `none`
is the fatal path. -/
def outerLoop (n : Nat) (R : List Nat) : Nat → List Nat → Nat → Option (List Nat × Nat)
  | 0, T1, d => some (T1, d)
  | c + 1, T1, d =>
    match rank n T1 (R.getD c 0) with
    | none => none
    | some r =>
      match innerF (R.getD c 0) c (r - c) r T1 d with
      | none => none
      | some none => none
      | some (some (T1', d')) => outerLoop n R c T1' d'

/-- `t64_rnni_distance(n, T, R)`: transform a working copy of `T`
(the `memcpy` of the first `n - 1` entries) into `R` by elementary
moves, returning the move count; `none` is the fatal path. -/
def t64_rnni_distance (n : Nat) (T R : List Nat) : Option Nat :=
  match outerLoop n R (n - 1) (T.take (n - 1)) 0 with
  | none => none
  | some (_, d) => some d

/-- One pass of the pairing loop of `t64_random` (lines 131-142), after
`j` has been decremented: `v[i] = u[a]; u[a] = u[jnew]; v[i] |= u[b];
u[b] = v[i]`.  The active-handle array is embedded as a function from
slot index to mask.  Returns the new tree entry and the updated array. -/
def t64_step (a b jnew : Nat) (u : Nat → Nat) : Nat × (Nat → Nat) :=
  let vi0 := u a
  let u1 : Nat → Nat := fun k => if k = a then u jnew else u k
  let vi := vi0 ||| u1 b
  (vi, fun k => if k = b then vi else u1 k)

/-- The coalescing loop of `t64_random`.  The random stream `s` models
the PCG generator: `pcg32_boundedrand_r(rng, bound)` for the `k`-th
draw is embedded as `s k % bound`, which ranges over exactly the
sequences of in-range draws as `s` ranges over all streams.  `i` is the
step index, the second argument the number of remaining steps, `u` the
active-handle array (slots `0, ..., n - i - 1` live). -/
def t64_randomAux (s : Nat → Nat) (n : Nat) : Nat → Nat → (Nat → Nat) → List Nat
  | _, 0, _ => []
  | i, rem + 1, u =>
    let j := n - i
    let a := s (2 * i) % j
    let b := s (2 * i + 1) % (j - 1)
    let p := t64_step a b (j - 1) u
    p.1 :: t64_randomAux s n (i + 1) rem p.2

/-- `t64_random(rng, n, v)`: build a random ranked tree with `n` leaves
by iterated random coalescence, starting from the singleton leaf masks
`u[i] = 1 << i`. -/
def t64_random (s : Nat → Nat) (n : Nat) : List Nat :=
  t64_randomAux s n 0 (n - 1) fun t => 2 ^ t

/-- Mask containment `x ⊆ y`, written as the C code tests it:
`(y & x) == x`. -/
def Sub (x y : Nat) : Prop := y &&& x = x

instance (x y : Nat) : Decidable (Sub x y) :=
  inferInstanceAs (Decidable (y &&& x = x))

/-- The masks available as children of the node at rank `i` of tree
`v`: the `n` singleton leaf masks and the entries at ranks below `i`. -/
def pieces (n : Nat) (v : List Nat) (i : Nat) : List Nat :=
  ((List.range n).map fun t => 2 ^ t) ++ v.take i

/-- The four `RankedTree` invariants of the specification, for a tree
with `n` leaves: correct length; the node at rank `n-2` is the root and
carries all `n` low bits; every node is the disjoint union of two
earlier entries or singleton leaf masks; no stored entry is a singleton
leaf mask; no two distinct ranks carry the same mask. -/
def WellFormed (n : Nat) (v : List Nat) : Prop :=
  v.length = n - 1 ∧
  v.getD (n - 2) 0 = 2 ^ n - 1 ∧
  (∀ i < n - 1, ∃ x ∈ pieces n v i, ∃ y ∈ pieces n v i,
    x &&& y = 0 ∧ v.getD i 0 = x ||| y) ∧
  (∀ i < n - 1, ∀ t < n, v.getD i 0 ≠ 2 ^ t) ∧
  (∀ i < n - 1, ∀ j < n - 1, i ≠ j → v.getD i 0 ≠ v.getD j 0)

instance (n : Nat) (v : List Nat) : Decidable (WellFormed n v) := by
  unfold WellFormed
  infer_instance

/-! ### Bitwise toolkit -/

theorem land_eq_zero_iff {x y : Nat} :
    x &&& y = 0 ↔ ∀ t, ¬(x.testBit t = true ∧ y.testBit t = true) := by
  constructor
  · intro h t ⟨hx, hy⟩
    have : (x &&& y).testBit t = true := by
      rw [Nat.testBit_and, hx, hy]; rfl
    rw [h, Nat.zero_testBit] at this
    exact Bool.false_ne_true this
  · intro h
    apply Nat.eq_of_testBit_eq
    intro t
    rw [Nat.testBit_and, Nat.zero_testBit]
    rcases hx : x.testBit t with _ | _
    · rfl
    · rcases hy : y.testBit t with _ | _
      · rfl
      · exact absurd ⟨hx, hy⟩ (h t)

theorem sub_iff {x y : Nat} :
    Sub x y ↔ ∀ t, x.testBit t = true → y.testBit t = true := by
  constructor
  · intro h t hx
    have : (y &&& x).testBit t = true := by rw [h]; exact hx
    rw [Nat.testBit_and] at this
    exact (Bool.and_eq_true _ _).mp this |>.1
  · intro h
    apply Nat.eq_of_testBit_eq
    intro t
    rw [Nat.testBit_and]
    rcases hx : x.testBit t with _ | _
    · exact Bool.and_false _
    · rw [h t hx]; rfl

theorem sub_refl (x : Nat) : Sub x x := Nat.and_self x

theorem sub_trans {a b c : Nat} (h1 : Sub a b) (h2 : Sub b c) : Sub a c := by
  rw [sub_iff] at *
  exact fun t ht => h2 t (h1 t ht)

theorem sub_lor_left (x y : Nat) : Sub x (x ||| y) := by
  rw [sub_iff]
  intro t ht
  rw [Nat.testBit_or, ht]; rfl

theorem sub_lor_right (x y : Nat) : Sub y (x ||| y) := by
  rw [sub_iff]
  intro t ht
  rw [Nat.testBit_or, ht, Bool.or_true]

theorem sub_antisymm {x y : Nat} (h1 : Sub x y) (h2 : Sub y x) : x = y := by
  rw [sub_iff] at h1 h2
  apply Nat.eq_of_testBit_eq
  intro t
  rcases hx : x.testBit t with _ | _
  · rcases hy : y.testBit t with _ | _
    · rfl
    · have := h2 t hy
      simp [hx] at this
  · exact (h1 t hx).symm

theorem sub_zero_right {x : Nat} (h : Sub x 0) : x = 0 := by
  have h' : 0 &&& x = x := h
  rw [Nat.zero_and] at h'
  exact h'.symm

theorem sub_of_disjoint {a x z : Nat} (ha : Sub a x) (hz : x &&& z = 0) :
    a &&& z = 0 := by
  rw [land_eq_zero_iff] at *
  rw [sub_iff] at ha
  exact fun t ⟨h1, h2⟩ => hz t ⟨ha t h1, h2⟩

theorem sub_land {a x y : Nat} (hx : Sub a x) (hy : Sub a y) :
    Sub a (x &&& y) := by
  rw [sub_iff] at *
  intro t ht
  rw [Nat.testBit_and, hx t ht, hy t ht]; rfl

theorem lor_land_zero {x y z : Nat} (hx : x &&& z = 0) (hy : y &&& z = 0) :
    (x ||| y) &&& z = 0 := by
  rw [land_eq_zero_iff] at *
  intro t ⟨h1, h2⟩
  rw [Nat.testBit_or] at h1
  rcases Bool.or_eq_true_iff.mp h1 with h | h
  · exact hx t ⟨h, h2⟩
  · exact hy t ⟨h, h2⟩

theorem land_zero_comm {x y : Nat} (h : x &&& y = 0) : y &&& x = 0 := by
  rwa [Nat.and_comm] at h

theorem lor_ne_zero_left {x y : Nat} (hx : x ≠ 0) : x ||| y ≠ 0 := by
  intro h
  obtain ⟨t, ht⟩ := Nat.ne_zero_implies_bit_true hx
  have : (x ||| y).testBit t = true := by rw [Nat.testBit_or, ht]; rfl
  rw [h, Nat.zero_testBit] at this
  exact Bool.false_ne_true this

theorem sub_two_pow {x t : Nat} (h : Sub x (2 ^ t)) : x = 0 ∨ x = 2 ^ t := by
  by_cases hx : x = 0
  · exact Or.inl hx
  · right
    rw [sub_iff] at h
    obtain ⟨s, hs⟩ := Nat.ne_zero_implies_bit_true hx
    have hst : t = s := by
      have := h s hs
      rwa [Nat.testBit_two_pow, decide_eq_true_eq] at this
    subst hst
    apply Nat.eq_of_testBit_eq
    intro u
    rw [Nat.testBit_two_pow]
    rcases hu : x.testBit u with _ | _
    · have htu : ¬ t = u := by
        intro he
        rw [← he] at hu
        simp [hu] at hs
      simp [htu]
    · have := h u hu
      rw [Nat.testBit_two_pow, decide_eq_true_eq] at this
      simp [this]

theorem lor_ne_two_pow {x y : Nat} (hd : x &&& y = 0) (hx : x ≠ 0) (hy : y ≠ 0)
    (t : Nat) : x ||| y ≠ 2 ^ t := by
  intro h
  have h1 : x = 2 ^ t := by
    rcases sub_two_pow (h ▸ sub_lor_left x y) with h' | h'
    · exact absurd h' hx
    · exact h'
  have h2 : y = 2 ^ t := by
    rcases sub_two_pow (h ▸ sub_lor_right x y) with h' | h'
    · exact absurd h' hy
    · exact h'
  rw [h1, h2, Nat.and_self] at hd
  exact absurd hd (Nat.two_pow_pos t).ne'

/-! ### Bit-count lemmas -/

theorem bitCard_lor {n x y : Nat} (hd : x &&& y = 0) :
    bitCard n (x ||| y) = bitCard n x + bitCard n y := by
  unfold bitCard
  have hfilter : ((Finset.range n).filter fun t => (x ||| y).testBit t = true) =
      ((Finset.range n).filter fun t => x.testBit t = true) ∪
      ((Finset.range n).filter fun t => y.testBit t = true) := by
    ext t
    simp only [Finset.mem_filter, Finset.mem_union, Nat.testBit_or,
      Bool.or_eq_true_iff]
    tauto
  rw [hfilter]
  apply Finset.card_union_of_disjoint
  rw [Finset.disjoint_filter]
  intro t _ hx hy
  rw [land_eq_zero_iff] at hd
  exact hd t ⟨hx, hy⟩

theorem bitCard_two_pow {n t : Nat} (h : t < n) : bitCard n (2 ^ t) = 1 := by
  unfold bitCard
  have : ((Finset.range n).filter fun s => (2 ^ t : Nat).testBit s = true) = {t} := by
    ext s
    simp only [Finset.mem_filter, Finset.mem_range, Finset.mem_singleton,
      Nat.testBit_two_pow, decide_eq_true_eq]
    constructor
    · exact fun ⟨_, h2⟩ => h2.symm
    · rintro rfl
      exact ⟨h, rfl⟩
  rw [this, Finset.card_singleton]

theorem bitCard_all_ones (n : Nat) : bitCard n (2 ^ n - 1) = n := by
  unfold bitCard
  have : ((Finset.range n).filter fun t => (2 ^ n - 1 : Nat).testBit t = true) =
      Finset.range n := by
    ext t
    simp only [Finset.mem_filter, Finset.mem_range,
      Nat.testBit_two_pow_sub_one, decide_eq_true_eq]
    tauto
  rw [this, Finset.card_range]

theorem eq_all_ones {n x : Nat} (hlt : x < 2 ^ n)
    (h : ∀ t < n, x.testBit t = true) : x = 2 ^ n - 1 := by
  apply Nat.eq_of_testBit_eq
  intro t
  rw [Nat.testBit_two_pow_sub_one]
  by_cases ht : t < n
  · simp [ht, h t ht]
  · have : x.testBit t = false := Nat.testBit_lt_two_pow
      (Nat.lt_of_lt_of_le hlt (Nat.pow_le_pow_right (by norm_num) (Nat.le_of_not_lt ht)))
    simp [ht, this]

/-! ### Properties of the rank scan -/

theorem rankAux_eq_some {v : List Nat} {x : Nat} :
    ∀ fuel i r, rankAux v x fuel i = some r →
      i ≤ r ∧ r < i + fuel ∧ v.getD r 0 &&& x = x ∧
        ∀ j, i ≤ j → j < r → ¬(v.getD j 0 &&& x = x) := by
  intro fuel
  induction fuel with
  | zero => intro i r h; exact absurd h (by simp [rankAux])
  | succ fuel ih =>
    intro i r h
    unfold rankAux at h
    by_cases hp : v.getD i 0 &&& x = x
    · rw [if_pos hp] at h
      obtain rfl : i = r := Option.some.inj h
      exact ⟨Nat.le_refl i, by omega, hp, fun j h1 h2 => absurd (Nat.lt_of_le_of_lt h1 h2) (Nat.lt_irrefl i)⟩
    · rw [if_neg hp] at h
      obtain ⟨h1, h2, h3, h4⟩ := ih (i + 1) r h
      refine ⟨by omega, by omega, h3, fun j hj1 hj2 => ?_⟩
      rcases Nat.eq_or_lt_of_le hj1 with rfl | hj
      · exact hp
      · exact h4 j hj hj2

theorem rankAux_of_first {v : List Nat} {x : Nat} :
    ∀ fuel i r, i ≤ r → r < i + fuel → v.getD r 0 &&& x = x →
      (∀ j, i ≤ j → j < r → ¬(v.getD j 0 &&& x = x)) →
      rankAux v x fuel i = some r := by
  intro fuel
  induction fuel with
  | zero => intro i r h1 h2; omega
  | succ fuel ih =>
    intro i r h1 h2 h3 h4
    unfold rankAux
    rcases Nat.eq_or_lt_of_le h1 with rfl | hlt
    · rw [if_pos h3]
    · rw [if_neg (h4 i (Nat.le_refl i) hlt)]
      exact ih (i + 1) r hlt (by omega) h3 fun j hj1 hj2 => h4 j (by omega) hj2

theorem rankAux_eq_none {v : List Nat} {x : Nat} :
    ∀ fuel i, (∀ j, i ≤ j → j < i + fuel → ¬(v.getD j 0 &&& x = x)) →
      rankAux v x fuel i = none := by
  intro fuel
  induction fuel with
  | zero => intro i _; rfl
  | succ fuel ih =>
    intro i h
    unfold rankAux
    rw [if_neg (h i (Nat.le_refl i) (by omega))]
    exact ih (i + 1) fun j h1 h2 => h j (by omega) (by omega)

theorem rank_eq_some {n : Nat} {v : List Nat} {x r : Nat}
    (h : rank n v x = some r) :
    r < n - 1 ∧ v.getD r 0 &&& x = x ∧ ∀ j < r, ¬(v.getD j 0 &&& x = x) := by
  obtain ⟨_, h2, h3, h4⟩ := rankAux_eq_some (n - 1) 0 r h
  exact ⟨by omega, h3, fun j hj => h4 j (Nat.zero_le j) hj⟩

theorem rank_of_first {n : Nat} {v : List Nat} {x r : Nat} (h1 : r < n - 1)
    (h2 : v.getD r 0 &&& x = x) (h3 : ∀ j < r, ¬(v.getD j 0 &&& x = x)) :
    rank n v x = some r :=
  rankAux_of_first (n - 1) 0 r (Nat.zero_le r) (by omega) h2
    fun j _ hj => h3 j hj

theorem rank_eq_none_of_no_match {n : Nat} {v : List Nat} {x : Nat}
    (h : ∀ j < n - 1, ¬(v.getD j 0 &&& x = x)) : rank n v x = none :=
  rankAux_eq_none (n - 1) 0 fun j _ hj => h j (by omega)

/-! ### Structural consequences of well-formedness -/

theorem mem_pieces_iff {n : Nat} {v : List Nat} {i x : Nat} :
    x ∈ pieces n v i ↔
      (∃ t, t < n ∧ x = 2 ^ t) ∨
      ∃ k, k < i ∧ k < v.length ∧ v.getD k 0 = x := by
  unfold pieces
  rw [List.mem_append]
  constructor
  · rintro (h | h)
    · obtain ⟨t, ht, rfl⟩ := List.mem_map.mp h
      exact Or.inl ⟨t, List.mem_range.mp ht, rfl⟩
    · obtain ⟨m, hm, he⟩ := List.mem_take_iff_getElem.mp h
      refine Or.inr ⟨m, by omega, by omega, ?_⟩
      rw [List.getD_eq_getElem?_getD, List.getElem?_eq_getElem (by omega : m < v.length), he]
      rfl
  · rintro (⟨t, ht, rfl⟩ | ⟨k, hk1, hk2, he⟩)
    · exact Or.inl (List.mem_map.mpr ⟨t, List.mem_range.mpr ht, rfl⟩)
    · refine Or.inr (List.mem_take_iff_getElem.mpr ⟨k, by omega, ?_⟩)
      rw [List.getD_eq_getElem?_getD, List.getElem?_eq_getElem hk2] at he
      exact he

theorem wf_entry_ne_zero {n : Nat} {v : List Nat} (hwf : WellFormed n v) :
    ∀ i < n - 1, v.getD i 0 ≠ 0 := by
  obtain ⟨hlen, _, hdec, _, _⟩ := hwf
  intro i
  induction i using Nat.strong_induction_on with
  | _ i ih =>
    intro hi h0
    obtain ⟨x, hx, y, _, _, hsum⟩ := hdec i hi
    have hxne : x ≠ 0 := by
      rcases mem_pieces_iff.mp hx with ⟨t, _, rfl⟩ | ⟨k, hk1, hk2, he⟩
      · exact (Nat.two_pow_pos t).ne'
      · rw [← he]
        exact ih k hk1 (by omega)
    rw [hsum] at h0
    exact lor_ne_zero_left hxne h0

theorem wf_entry_lt {n : Nat} {v : List Nat} (hwf : WellFormed n v) :
    ∀ i < n - 1, v.getD i 0 < 2 ^ n := by
  obtain ⟨hlen, _, hdec, _, _⟩ := hwf
  intro i
  induction i using Nat.strong_induction_on with
  | _ i ih =>
    intro hi
    obtain ⟨x, hx, y, hy, _, hsum⟩ := hdec i hi
    have hpiece : ∀ p, p ∈ pieces n v i → p < 2 ^ n := by
      intro p hp
      rcases mem_pieces_iff.mp hp with ⟨t, ht, rfl⟩ | ⟨k, hk1, hk2, he⟩
      · exact Nat.pow_lt_pow_right (by norm_num) ht
      · rw [← he]
        exact ih k hk1 (by omega)
    rw [hsum]
    exact Nat.or_lt_two_pow (hpiece x hx) (hpiece y hy)

theorem wf_piece_ne_zero {n : Nat} {v : List Nat} (hwf : WellFormed n v)
    {i p : Nat} (hp : p ∈ pieces n v i) (hi : i ≤ n - 1) : p ≠ 0 := by
  rcases mem_pieces_iff.mp hp with ⟨t, _, rfl⟩ | ⟨k, hk1, hk2, he⟩
  · exact (Nat.two_pow_pos t).ne'
  · rw [← he]
    exact wf_entry_ne_zero hwf k (by omega)

/-- The property granted to the node at rank `i` by the counting
induction: a set `D` of the ranks in its decomposition subtree, with
exactly `popcount - 1` members, on which mask containment respects rank
order and any two masks are nested or disjoint. -/
def DescSet (n : Nat) (v : List Nat) (i : Nat) (D : Finset Nat) : Prop :=
  i ∈ D ∧
  (∀ k ∈ D, k ≤ i ∧ k < n - 1 ∧ Sub (v.getD k 0) (v.getD i 0)) ∧
  D.card + 1 = bitCard n (v.getD i 0) ∧
  (∀ k ∈ D, ∀ l ∈ D, Sub (v.getD k 0) (v.getD l 0) → k ≤ l) ∧
  (∀ k ∈ D, ∀ l ∈ D,
    Sub (v.getD k 0) (v.getD l 0) ∨ Sub (v.getD l 0) (v.getD k 0) ∨
    v.getD k 0 &&& v.getD l 0 = 0)

/-- Auxiliary for the counting induction: each available piece `p` of
the node at rank `i` carries a set of `popcount p - 1` ranks, all below
`i`, whose masks sit inside `p` and satisfy the rank-order and
laminarity properties. -/
theorem wf_piece_set {n : Nat} {v : List Nat} (hwf : WellFormed n v)
    {i : Nat} (_hi : i < n - 1)
    (ih : ∀ k, k < i → k < n - 1 → ∃ D, DescSet n v k D)
    {p : Nat} (hp : p ∈ pieces n v i) :
    ∃ S : Finset Nat,
      (∀ k ∈ S, k < i ∧ k < n - 1 ∧ Sub (v.getD k 0) p) ∧
      S.card + 1 = bitCard n p ∧
      (∀ k ∈ S, ∀ l ∈ S, Sub (v.getD k 0) (v.getD l 0) → k ≤ l) ∧
      (∀ k ∈ S, ∀ l ∈ S,
        Sub (v.getD k 0) (v.getD l 0) ∨ Sub (v.getD l 0) (v.getD k 0) ∨
        v.getD k 0 &&& v.getD l 0 = 0) := by
  rcases mem_pieces_iff.mp hp with ⟨t, ht, rfl⟩ | ⟨m, hm1, hm2, he⟩
  · refine ⟨∅, by simp, ?_, by simp, by simp⟩
    rw [Finset.card_empty, bitCard_two_pow ht]
  · have hmn : m < n - 1 := by
      have hlen := hwf.1
      omega
    obtain ⟨D, hD1, hD2, hD3, hD4, hD5⟩ := ih m hm1 hmn
    refine ⟨D, fun k hk => ?_, by rw [hD3, he], hD4, hD5⟩
    obtain ⟨h1, h2, h3⟩ := hD2 k hk
    exact ⟨by omega, h2, he ▸ h3⟩

/-- The counting induction: the decomposition subtree of the node at
rank `i` contains exactly `popcount - 1` ranks. -/
theorem wf_desc {n : Nat} {v : List Nat} (hwf : WellFormed n v) :
    ∀ i < n - 1, ∃ D, DescSet n v i D := by
  intro i
  induction i using Nat.strong_induction_on with
  | _ i ih =>
    intro hi
    obtain ⟨x, hx, y, hy, hdisj, hsum⟩ := hwf.2.2.1 i hi
    have ihD : ∀ k, k < i → k < n - 1 → ∃ D, DescSet n v k D :=
      fun k hk1 hk2 => ih k hk1 hk2
    obtain ⟨Sx, hSx1, hSx2, hSx3, hSx4⟩ := wf_piece_set hwf hi ihD hx
    obtain ⟨Sy, hSy1, hSy2, hSy3, hSy4⟩ := wf_piece_set hwf hi ihD hy
    have hxne : x ≠ 0 := wf_piece_ne_zero hwf hx (by omega)
    have hyne : y ≠ 0 := wf_piece_ne_zero hwf hy (by omega)
    -- a rank whose mask sits inside both pieces would carry the zero mask
    have hcross : ∀ k, k ∈ Sx → k ∈ Sy → False := by
      intro k hkx hky
      have h1 : Sub (v.getD k 0) x := (hSx1 k hkx).2.2
      have h2 : Sub (v.getD k 0) y := (hSy1 k hky).2.2
      have := sub_land h1 h2
      rw [hdisj] at this
      exact wf_entry_ne_zero hwf k (hSx1 k hkx).2.1 (sub_zero_right this)
    have hdisjS : Disjoint Sx Sy := by
      rw [Finset.disjoint_left]
      intro k hk1 hk2
      exact hcross k hk1 hk2
    have hsubx : Sub x (v.getD i 0) := by rw [hsum]; exact sub_lor_left x y
    have hsuby : Sub y (v.getD i 0) := by rw [hsum]; exact sub_lor_right x y
    -- membership helper: everything in the union is strictly below i
    have hmem : ∀ k ∈ Sx ∪ Sy, k < i ∧ k < n - 1 ∧ Sub (v.getD k 0) (v.getD i 0) := by
      intro k hk
      rcases Finset.mem_union.mp hk with hk | hk
      · obtain ⟨h1, h2, h3⟩ := hSx1 k hk
        exact ⟨h1, h2, sub_trans h3 hsubx⟩
      · obtain ⟨h1, h2, h3⟩ := hSy1 k hk
        exact ⟨h1, h2, sub_trans h3 hsuby⟩
    -- an entry of one piece set cannot contain the whole node mask
    have hnotup : ∀ l, l ∈ Sx ∪ Sy → ¬ Sub (v.getD i 0) (v.getD l 0) := by
      intro l hl hcontra
      rcases Finset.mem_union.mp hl with hl' | hl'
      · have h1 : Sub (v.getD i 0) x := sub_trans hcontra (hSx1 l hl').2.2
        have h2 : Sub y x := sub_trans hsuby h1
        have h4 : y = 0 := by rw [← h2]; exact hdisj
        exact hyne h4
      · have h1 : Sub (v.getD i 0) y := sub_trans hcontra (hSy1 l hl').2.2
        have h2 : Sub x y := sub_trans hsubx h1
        have h4 : x = 0 := by rw [← h2]; exact land_zero_comm hdisj
        exact hxne h4
    -- masks from the two different piece sets are disjoint
    have hdisjmask : ∀ k l, k ∈ Sx → l ∈ Sy →
        v.getD k 0 &&& v.getD l 0 = 0 := by
      intro k l hk hl
      exact sub_of_disjoint (hSx1 k hk).2.2
        (sub_of_disjoint (hSy1 l hl).2.2 (land_zero_comm hdisj) |> land_zero_comm)
    refine ⟨insert i (Sx ∪ Sy), Finset.mem_insert_self i _, ?_, ?_, ?_, ?_⟩
    · intro k hk
      rcases Finset.mem_insert.mp hk with rfl | hk
      · exact ⟨Nat.le_refl k, hi, sub_refl _⟩
      · obtain ⟨h1, h2, h3⟩ := hmem k hk
        exact ⟨by omega, h2, h3⟩
    · rw [Finset.card_insert_of_not_mem
        (fun h => absurd (hmem i h).1 (Nat.lt_irrefl i)),
        Finset.card_union_of_disjoint hdisjS, hsum, bitCard_lor hdisj]
      omega
    · intro k hk l hl hsub
      rcases Finset.mem_insert.mp hk with rfl | hk' <;>
        rcases Finset.mem_insert.mp hl with h | hl'
      · omega
      · exact absurd hsub (hnotup l hl')
      · subst h
        exact Nat.le_of_lt (hmem k hk').1
      · rcases Finset.mem_union.mp hk' with hk'' | hk'' <;>
          rcases Finset.mem_union.mp hl' with hl'' | hl''
        · exact hSx3 k hk'' l hl'' hsub
        · have hd : v.getD l 0 &&& v.getD k 0 = 0 :=
            land_zero_comm (hdisjmask k l hk'' hl'')
          have hz : v.getD k 0 = 0 := by
            have h' : v.getD l 0 &&& v.getD k 0 = v.getD k 0 := hsub
            rw [← h']; exact hd
          exact (wf_entry_ne_zero hwf k (hSx1 k hk'').2.1 hz).elim
        · have hd : v.getD l 0 &&& v.getD k 0 = 0 := hdisjmask l k hl'' hk''
          have hz : v.getD k 0 = 0 := by
            have h' : v.getD l 0 &&& v.getD k 0 = v.getD k 0 := hsub
            rw [← h']; exact hd
          exact (wf_entry_ne_zero hwf k (hSy1 k hk'').2.1 hz).elim
        · exact hSy3 k hk'' l hl'' hsub
    · intro k hk l hl
      rcases Finset.mem_insert.mp hk with rfl | hk'
      · rcases Finset.mem_insert.mp hl with h | hl'
        · subst h
          exact Or.inl (sub_refl _)
        · exact Or.inr (Or.inl (hmem l hl').2.2)
      · rcases Finset.mem_insert.mp hl with h | hl'
        · subst h
          exact Or.inl (hmem k hk').2.2
        · rcases Finset.mem_union.mp hk' with hk'' | hk'' <;>
            rcases Finset.mem_union.mp hl' with hl'' | hl''
          · exact hSx4 k hk'' l hl''
          · exact Or.inr (Or.inr (hdisjmask k l hk'' hl''))
          · exact Or.inr (Or.inr (land_zero_comm (hdisjmask l k hl'' hk'')))
          · exact hSy4 k hk'' l hl''

/-- The root's decomposition subtree contains every rank: the counting
lemma applied at the root pins its set to `{0, ..., n-2}`. -/
theorem wf_root_desc {n : Nat} {v : List Nat} (hwf : WellFormed n v)
    (hn : 2 ≤ n) :
    ∃ D, DescSet n v (n - 2) D ∧ D = Finset.range (n - 1) := by
  obtain ⟨D, hD⟩ := wf_desc hwf (n - 2) (by omega)
  refine ⟨D, hD, ?_⟩
  obtain ⟨_, hD2, hD3, _, _⟩ := hD
  have hsub : D ⊆ Finset.range (n - 1) := fun k hk =>
    Finset.mem_range.mpr (hD2 k hk).2.1
  have hroot : v.getD (n - 2) 0 = 2 ^ n - 1 := hwf.2.1
  have hcard : D.card + 1 = n := by
    rw [hD3, hroot, bitCard_all_ones]
  exact (Finset.eq_of_subset_of_card_le hsub
    (by rw [Finset.card_range]; omega)).symm ▸ rfl

/-- In a well-formed tree, mask containment respects rank order: an
entry contained in another sits at a rank no higher than it. -/
theorem wf_mono {n : Nat} {v : List Nat} (hwf : WellFormed n v) (hn : 2 ≤ n)
    {k l : Nat} (hk : k < n - 1) (hl : l < n - 1)
    (h : Sub (v.getD k 0) (v.getD l 0)) : k ≤ l := by
  obtain ⟨D, hD, hDr⟩ := wf_root_desc hwf hn
  obtain ⟨_, _, _, hchain, _⟩ := hD
  exact hchain k (hDr ▸ Finset.mem_range.mpr hk) l
    (hDr ▸ Finset.mem_range.mpr hl) h

/-- In a well-formed tree, any two entry masks are nested or disjoint
(laminarity). -/
theorem wf_laminar {n : Nat} {v : List Nat} (hwf : WellFormed n v)
    (hn : 2 ≤ n) {k l : Nat} (hk : k < n - 1) (hl : l < n - 1) :
    Sub (v.getD k 0) (v.getD l 0) ∨ Sub (v.getD l 0) (v.getD k 0) ∨
      v.getD k 0 &&& v.getD l 0 = 0 := by
  obtain ⟨D, hD, hDr⟩ := wf_root_desc hwf hn
  obtain ⟨_, _, _, _, hlam⟩ := hD
  exact hlam k (hDr ▸ Finset.mem_range.mpr hk) l (hDr ▸ Finset.mem_range.mpr hl)

/-- In a well-formed tree, the first `rank`-scan match for an entry own
mask is its own rank. -/
theorem wf_rank_self {n : Nat} {v : List Nat} (hwf : WellFormed n v)
    (hn : 2 ≤ n) {i : Nat} (hi : i < n - 1) :
    rank n v (v.getD i 0) = some i := by
  apply rank_of_first hi (Nat.and_self _)
  intro j hj hmatch
  have : i ≤ j := wf_mono hwf hn hi (by omega) hmatch
  omega

/-! ### Loop lemmas for the distance algorithm -/

theorem getD_set_ne {l : List Nat} {i j : Nat} (h : i ≠ j) (x : Nat) :
    (l.set i x).getD j 0 = l.getD j 0 := by
  rw [List.getD_eq_getElem?_getD, List.getD_eq_getElem?_getD,
    List.getElem?_set_ne h]

/-- Frame property of one elementary move: only the entries at ranks
`r` and `r - 1` can change, and in the nested case the entry at rank
`r` is untouched. -/
theorem move_frame {Ri r : Nat} {T1 T1' : List Nat} (hr : 0 < r)
    (h : t64_move Ri r T1 = some T1') :
    (∀ k, k ≠ r → k ≠ r - 1 → T1'.getD k 0 = T1.getD k 0) ∧
    (T1.getD r 0 &&& T1.getD (r - 1) 0 ≠ 0 → T1'.getD r 0 = T1.getD r 0) := by
  simp only [t64_move] at h
  split at h
  next hvu =>
    have hset : ∃ m, T1' = T1.set (r - 1) m := by
      split at h
      · exact Option.noConfusion h
      · split at h
        · exact ⟨_, (Option.some.inj h).symm⟩
        · exact ⟨_, (Option.some.inj h).symm⟩
    obtain ⟨m, rfl⟩ := hset
    refine ⟨fun k _ hk2 => getD_set_ne (Ne.symm hk2) m, fun _ => ?_⟩
    exact getD_set_ne (by omega) m
  next hvu =>
    obtain rfl : (T1.set r (T1.getD (r - 1) 0)).set (r - 1) (T1.getD r 0) = T1' :=
      Option.some.inj h
    refine ⟨fun k hk1 hk2 => ?_, fun hne => absurd hne hvu⟩
    rw [getD_set_ne (Ne.symm hk2), getD_set_ne (Ne.symm hk1)]

/-- The `while (r > i)` loop exits within `r - i` iterations (each
iteration decrements `r` by exactly one) and, when it exits normally,
has incremented the move counter exactly `r - i` times. -/
theorem innerF_complete (Ri i : Nat) :
    ∀ fuel r T1 d, r - i ≤ fuel →
      innerF Ri i fuel r T1 d ≠ none ∧
      ∀ T1' d', innerF Ri i fuel r T1 d = some (some (T1', d')) →
        d' = d + (r - i) := by
  intro fuel
  induction fuel with
  | zero =>
    intro r T1 d hle
    have hri : ¬ i < r := by omega
    constructor
    · unfold innerF
      rw [if_neg hri]
      exact Option.noConfusion
    · intro T1' d' h
      unfold innerF at h
      rw [if_neg hri] at h
      simp only [Option.some.injEq, Prod.mk.injEq] at h
      obtain ⟨rfl, rfl⟩ := h
      omega
  | succ fuel ih =>
    intro r T1 d hle
    by_cases hri : i < r
    · constructor
      · unfold innerF
        rw [if_pos hri]
        cases hmove : t64_move Ri r T1 with
        | none => exact Option.noConfusion
        | some T1'' =>
          exact (ih (r - 1) T1'' (d + 1) (by omega)).1
      · intro T1' d' h
        unfold innerF at h
        rw [if_pos hri] at h
        cases hmove : t64_move Ri r T1 with
        | none => rw [hmove] at h; exact Option.noConfusion (Option.some.inj h)
        | some T1'' =>
          rw [hmove] at h
          have := (ih (r - 1) T1'' (d + 1) (by omega)).2 T1' d' h
          omega
    · constructor
      · unfold innerF
        rw [if_neg hri]
        exact Option.noConfusion
      · intro T1' d' h
        unfold innerF at h
        rw [if_neg hri] at h
        simp only [Option.some.injEq, Prod.mk.injEq] at h
        obtain ⟨rfl, rfl⟩ := h
        omega

/-- Move-count bound for the outer loop: step `i = c - 1` adds at most
`n - 2 - (c - 1)` moves. -/
theorem outerLoop_d_le {n : Nat} {R : List Nat} :
    ∀ c T1 d T1' d', outerLoop n R c T1 d = some (T1', d') →
      d' ≤ d + ∑ i ∈ Finset.range c, (n - 2 - i) := by
  intro c
  induction c with
  | zero =>
    intro T1 d T1' d' h
    simp only [outerLoop, Option.some.injEq, Prod.mk.injEq] at h
    obtain ⟨-, rfl⟩ := h
    simp
  | succ c ih =>
    intro T1 d T1' d' h
    cases hrank : rank n T1 (R.getD c 0) with
    | none =>
      simp only [outerLoop, hrank] at h
      exact Option.noConfusion h
    | some r =>
      simp only [outerLoop, hrank] at h
      rcases hinner : innerF (R.getD c 0) c (r - c) r T1 d with _ | hm
      · rw [hinner] at h; exact Option.noConfusion h
      · rcases hm with _ | ⟨T1'', d''⟩
        · rw [hinner] at h; exact Option.noConfusion h
        · rw [hinner] at h
          have hr : r < n - 1 := (rank_eq_some hrank).1
          have hd'' : d'' = d + (r - c) :=
            (innerF_complete (R.getD c 0) c (r - c) r T1 d (Nat.le_refl _)).2
              T1'' d'' hinner
          have hrec : d' ≤ d'' + ∑ i ∈ Finset.range c, (n - 2 - i) :=
            ih T1'' d'' T1' d' h
          have hsum : ∑ i ∈ Finset.range (c + 1), (n - 2 - i) =
              (∑ i ∈ Finset.range c, (n - 2 - i)) + (n - 2 - c) :=
            Finset.sum_range_succ _ c
          have hrc : r - c ≤ n - 2 - c := by omega
          omega

/-- On identical trees the outer loop is the identity: each rank scan
finds its own rank, so the inner loop never runs. -/
theorem outerLoop_self {n : Nat} {T : List Nat} (hwf : WellFormed n T)
    (hn : 2 ≤ n) :
    ∀ c d, c ≤ n - 1 → outerLoop n T c T d = some (T, d) := by
  intro c
  induction c with
  | zero => intro d _; rfl
  | succ c ih =>
    intro d hc
    have hrank := wf_rank_self hwf hn (show c < n - 1 by omega)
    have hinner : innerF (T.getD c 0) c (c - c) c T d = some (some (T, d)) := by
      rw [Nat.sub_self]
      unfold innerF
      rw [if_neg (Nat.lt_irrefl c)]
    simp only [outerLoop, hrank, hinner]
    exact ih d (by omega)

/-! ### Invariants of the random-tree generator -/

/-- State invariant of the active-handle array during `t64_random`:
`j` slots are live; their masks are nonempty, pairwise disjoint,
bounded by `2 ^ n`, jointly cover all `n` leaves, and each is a
singleton leaf mask or an already-emitted entry; every emitted entry
sits inside some live handle; emitted entries are nonzero and pairwise
distinct. -/
structure GenInv (n j : Nat) (u : Nat → Nat) (prior : List Nat) : Prop where
  nz : ∀ k < j, u k ≠ 0
  disj : ∀ k l, k < j → l < j → k ≠ l → u k &&& u l = 0
  cover : ∀ t < n, ∃ k, k < j ∧ (u k).testBit t = true
  bnd : ∀ k < j, u k < 2 ^ n
  piece : ∀ k < j, (∃ t, t < n ∧ u k = 2 ^ t) ∨ u k ∈ prior
  anc : ∀ e ∈ prior, ∃ k, k < j ∧ Sub e (u k)
  pnz : ∀ e ∈ prior, e ≠ 0
  pnd : prior.Nodup

/-- One coalescing pass preserves the generator invariant; moreover the
emitted entry is a disjoint union of two nonempty leaf-or-earlier
masks, and the final pass (`j = 2`) emits the full root mask. -/
theorem t64_step_inv {n j a b : Nat} {u : Nat → Nat} {prior : List Nat}
    (hinv : GenInv n j u prior) (hj : 2 ≤ j) (ha : a < j) (hb : b < j - 1) :
    GenInv n (j - 1) (t64_step a b (j - 1) u).2
      (prior ++ [(t64_step a b (j - 1) u).1]) ∧
    (∃ x y, ((∃ t, t < n ∧ x = 2 ^ t) ∨ x ∈ prior) ∧
      ((∃ t, t < n ∧ y = 2 ^ t) ∨ y ∈ prior) ∧ x &&& y = 0 ∧ x ≠ 0 ∧ y ≠ 0 ∧
      (t64_step a b (j - 1) u).1 = x ||| y) ∧
    (j = 2 → (t64_step a b (j - 1) u).1 = 2 ^ n - 1) := by
  obtain ⟨nz, disj, cover, bnd, piece, anc, pnz, pnd⟩ := hinv
  set vi := (t64_step a b (j - 1) u).1 with hvi_def
  set u' := (t64_step a b (j - 1) u).2 with hu'_def
  set q := if a = b then j - 1 else b with hq_def
  have hqlt : q < j := by
    rw [hq_def]; by_cases hab : a = b <;> simp [hab] <;> omega
  have haq : a ≠ q := by
    rw [hq_def]; by_cases hab : a = b <;> simp [hab] <;> omega
  have hvi : vi = u a ||| u q := by
    have h0 : vi = u a ||| (if b = a then u (j - 1) else u b) := rfl
    rw [h0, hq_def]
    by_cases hab : a = b
    · simp [hab]
    · have hba : b ≠ a := fun h => hab h.symm
      simp [hab, hba]
  have hu' : ∀ k, u' k = if k = b then vi else if k = a then u (j - 1) else u k :=
    fun k => rfl
  -- the slot relabelling for live slots other than b
  set sf : Nat → Nat := fun k => if k = a then j - 1 else k with hsf_def
  have hsval : ∀ k, k < j - 1 → k ≠ b → u' k = u (sf k) := by
    intro k hk hkb
    rw [hu' k, if_neg hkb, hsf_def]
    by_cases hka : k = a <;> simp [hka]
  have hslt : ∀ k, k < j - 1 → sf k < j := by
    intro k hk
    rw [hsf_def]; by_cases hka : k = a <;> simp [hka] <;> omega
  have hsa : ∀ k, k < j - 1 → sf k ≠ a := by
    intro k hk
    rw [hsf_def]
    by_cases hka : k = a <;> simp [hka] <;> omega
  have hsq : ∀ k, k < j - 1 → k ≠ b → sf k ≠ q := by
    intro k hk hkb
    rw [hsf_def, hq_def]
    by_cases hab : a = b <;> by_cases hka : k = a <;> simp [hab, hka] <;> omega
  have hsinj : ∀ k l, k < j - 1 → l < j - 1 → k ≠ l → sf k ≠ sf l := by
    intro k l hk hl hkl
    rw [hsf_def]
    by_cases hka : k = a <;> by_cases hla : l = a <;> simp [hka, hla] <;> omega
  have hssurj : ∀ k0, k0 < j → k0 ≠ a → k0 ≠ q →
      ∃ k, k < j - 1 ∧ k ≠ b ∧ sf k = k0 := by
    intro k0 hk0 hk0a hk0q
    by_cases hk0j : k0 = j - 1
    · have hab : a ≠ b := by
        intro hab
        apply hk0q
        rw [hq_def, if_pos hab, hk0j]
      have haj : a < j - 1 := by
        rcases Nat.lt_or_ge a (j - 1) with h | h
        · exact h
        · exact absurd (by omega : a = j - 1) (by rw [← hk0j]; exact fun h' => hk0a h'.symm)
      refine ⟨a, haj, hab, ?_⟩
      simp [hsf_def, hk0j]
    · have hbq : k0 ≠ b := by
        rw [hq_def] at hk0q
        by_cases hab : a = b
        · rw [← hab]; exact hk0a
        · simpa [hab] using hk0q
      exact ⟨k0, by omega, hbq, by simp [hsf_def, hk0a]⟩
  have hvine : vi ≠ 0 := by
    rw [hvi]; exact lor_ne_zero_left (nz a ha)
  have hdisjvi : ∀ k0, k0 < j → k0 ≠ a → k0 ≠ q → u k0 &&& vi = 0 := by
    intro k0 hk0 h1 h2
    rw [hvi]
    exact land_zero_comm (lor_land_zero (disj a k0 ha hk0 (Ne.symm h1))
      (disj q k0 hqlt hk0 (Ne.symm h2)))
  have hnotprior : vi ∉ prior := by
    intro hmem
    obtain ⟨k0, hk0, hsubv⟩ := anc vi hmem
    by_cases h1 : k0 = a
    · rw [h1] at hsubv
      have h2 : Sub (u q) (u a) := sub_trans (hvi ▸ sub_lor_right (u a) (u q)) hsubv
      have h3 : u a &&& u q = 0 := disj a q ha hqlt haq
      have : u q = 0 := by rw [← h2]; exact h3
      exact nz q hqlt this
    · by_cases h2 : k0 = q
      · rw [h2] at hsubv
        have h2' : Sub (u a) (u q) := sub_trans (hvi ▸ sub_lor_left (u a) (u q)) hsubv
        have h3 : u q &&& u a = 0 := disj q a hqlt ha (Ne.symm haq)
        have : u a = 0 := by rw [← h2']; exact h3
        exact nz a ha this
      · have h3 : u k0 &&& vi = 0 := hdisjvi k0 hk0 h1 h2
        have h4 : vi &&& vi = 0 := by
          have := sub_of_disjoint hsubv h3
          calc vi &&& vi = vi := Nat.and_self vi
          _ = u k0 &&& vi := hsubv.symm
          _ = 0 := h3
        rw [Nat.and_self] at h4
        exact hvine h4
  refine ⟨⟨?_, ?_, ?_, ?_, ?_, ?_, ?_, ?_⟩, ?_, ?_⟩
  · -- nz
    intro k hk
    by_cases hkb : k = b
    · rw [hu' k, if_pos hkb]; exact hvine
    · rw [hsval k hk hkb]; exact nz _ (hslt k hk)
  · -- disj
    intro k l hk hl hkl
    by_cases hkb : k = b
    · have hlb : l ≠ b := fun h => hkl (hkb.trans h.symm)
      rw [hu' k, if_pos hkb, hsval l hl hlb]
      exact land_zero_comm (hdisjvi (sf l) (hslt l hl) (hsa l hl) (hsq l hl hlb))
    · by_cases hlb : l = b
      · rw [hu' l, if_pos hlb, hsval k hk hkb]
        exact hdisjvi (sf k) (hslt k hk) (hsa k hk) (hsq k hk hkb)
      · rw [hsval k hk hkb, hsval l hl hlb]
        exact disj _ _ (hslt k hk) (hslt l hl) (hsinj k l hk hl hkl)
  · -- cover
    intro t ht
    obtain ⟨k0, hk0, hbit⟩ := cover t ht
    by_cases h1 : k0 = a
    · refine ⟨b, hb, ?_⟩
      rw [hu' b, if_pos rfl, hvi, Nat.testBit_or, ← h1, hbit]
      rfl
    · by_cases h2 : k0 = q
      · refine ⟨b, hb, ?_⟩
        rw [hu' b, if_pos rfl, hvi, Nat.testBit_or, ← h2, hbit, Bool.or_true]
      · obtain ⟨k, hk, hkb, hsk⟩ := hssurj k0 hk0 h1 h2
        refine ⟨k, hk, ?_⟩
        rw [hsval k hk hkb, hsk]
        exact hbit
  · -- bnd
    intro k hk
    by_cases hkb : k = b
    · rw [hu' k, if_pos hkb, hvi]
      exact Nat.or_lt_two_pow (bnd a ha) (bnd q hqlt)
    · rw [hsval k hk hkb]; exact bnd _ (hslt k hk)
  · -- piece
    intro k hk
    by_cases hkb : k = b
    · rw [hu' k, if_pos hkb]
      exact Or.inr (List.mem_append.mpr (Or.inr (List.mem_singleton.mpr rfl)))
    · rw [hsval k hk hkb]
      rcases piece _ (hslt k hk) with h | h
      · exact Or.inl h
      · exact Or.inr (List.mem_append.mpr (Or.inl h))
  · -- anc
    intro e he
    rcases List.mem_append.mp he with he | he
    · obtain ⟨k0, hk0, hsub'⟩ := anc e he
      by_cases h1 : k0 = a
      · refine ⟨b, hb, ?_⟩
        rw [hu' b, if_pos rfl]
        exact sub_trans hsub' (h1 ▸ hvi ▸ sub_lor_left (u a) (u q))
      · by_cases h2 : k0 = q
        · refine ⟨b, hb, ?_⟩
          rw [hu' b, if_pos rfl]
          exact sub_trans hsub' (h2 ▸ hvi ▸ sub_lor_right (u a) (u q))
        · obtain ⟨k, hk, hkb, hsk⟩ := hssurj k0 hk0 h1 h2
          refine ⟨k, hk, ?_⟩
          rw [hsval k hk hkb, hsk]
          exact hsub'
    · refine ⟨b, hb, ?_⟩
      rw [List.mem_singleton.mp he, hu' b, if_pos rfl]
      exact sub_refl vi
  · -- pnz
    intro e he
    rcases List.mem_append.mp he with he | he
    · exact pnz e he
    · rw [List.mem_singleton.mp he]; exact hvine
  · -- pnd
    rw [List.nodup_append]
    refine ⟨pnd, List.nodup_singleton vi, ?_⟩
    intro e he hemem
    rw [List.mem_singleton.mp hemem] at he
    exact hnotprior he
  · -- decomposition of the emitted entry
    refine ⟨u a, u q, piece a ha, piece q hqlt, disj a q ha hqlt haq,
      nz a ha, nz q hqlt, hvi⟩
  · -- final pass emits the root mask
    intro hj2
    subst hj2
    have hb0 : b = 0 := by omega
    have haset : a = 0 ∨ a = 1 := by omega
    have hbits : ∀ t, t < n → vi.testBit t = true := by
      intro t ht
      obtain ⟨k0, hk0, hbit⟩ := cover t ht
      have hk01 : k0 = 0 ∨ k0 = 1 := by omega
      have hor : vi.testBit t = ((u a).testBit t || (u q).testBit t) := by
        rw [hvi, Nat.testBit_or]
      have hq01 : (a = 0 ∧ q = 1) ∨ (a = 1 ∧ q = 0) := by
        rw [hq_def]
        rcases haset with h | h
        · subst h
          by_cases hab : 0 = b <;> simp [hab] <;> omega
        · subst h
          by_cases hab : 1 = b <;> simp [hab] <;> omega
      rcases hq01 with ⟨ha', hq'⟩ | ⟨ha', hq'⟩ <;>
        rcases hk01 with hk' | hk' <;>
          · rw [hor, ha', hq']
            rw [hk'] at hbit
            simp [hbit]
    have hblt : vi < 2 ^ n := by
      rw [hvi]
      exact Nat.or_lt_two_pow (bnd a ha) (bnd q hqlt)
    exact eq_all_ones hblt hbits

theorem getD_mem {l : List Nat} {i : Nat} (hi : i < l.length) :
    l.getD i 0 ∈ l := by
  rw [List.getD_eq_getElem?_getD, List.getElem?_eq_getElem hi]
  exact List.getElem_mem hi

/-- The full specification of the coalescing loop, by induction over
the remaining passes: correct output length; every emitted entry is a
disjoint union of two nonempty leaf-or-earlier masks; no duplicates
(also against the already-emitted prefix); the final entry is the full
root mask; no emitted entry is empty or a singleton leaf mask. -/
theorem t64_randomAux_spec {n : Nat} (s : Nat → Nat) :
    ∀ rem i u prior, prior.length = i → i + rem = n - 1 →
      GenInv n (n - i) u prior →
      (t64_randomAux s n i rem u).length = rem ∧
      (∀ idx, idx < rem →
        ∃ x y,
          ((∃ t, t < n ∧ x = 2 ^ t) ∨
            x ∈ prior ++ (t64_randomAux s n i rem u).take idx) ∧
          ((∃ t, t < n ∧ y = 2 ^ t) ∨
            y ∈ prior ++ (t64_randomAux s n i rem u).take idx) ∧
          x &&& y = 0 ∧ x ≠ 0 ∧ y ≠ 0 ∧
          (t64_randomAux s n i rem u).getD idx 0 = x ||| y) ∧
      (prior ++ t64_randomAux s n i rem u).Nodup ∧
      (0 < rem → (t64_randomAux s n i rem u).getD (rem - 1) 0 = 2 ^ n - 1) ∧
      (∀ e ∈ t64_randomAux s n i rem u, e ≠ 0 ∧ ∀ t, t < n → e ≠ 2 ^ t) := by
  intro rem
  induction rem with
  | zero =>
    intro i u prior _ _ hinv
    refine ⟨rfl, fun idx h => absurd h (by omega), ?_, fun h => absurd h (by omega),
      fun e he => absurd he (by simp [t64_randomAux])⟩
    simpa [t64_randomAux] using hinv.pnd
  | succ rem ih =>
    intro i u prior hplen hsum hinv
    have hj2 : 2 ≤ n - i := by omega
    have ha : s (2 * i) % (n - i) < n - i := Nat.mod_lt _ (by omega)
    have hb : s (2 * i + 1) % (n - i - 1) < n - i - 1 := Nat.mod_lt _ (by omega)
    have hlast : rem = 0 → n - i = 2 := by intro h0; omega
    obtain ⟨hinv', hdecomp, hroot⟩ := t64_step_inv hinv hj2 ha hb
    set a := s (2 * i) % (n - i) with ha_def
    set b := s (2 * i + 1) % (n - i - 1) with hb_def
    set vi := (t64_step a b (n - i - 1) u).1 with hvi_def
    set u2 := (t64_step a b (n - i - 1) u).2 with hu2_def
    have hunf : t64_randomAux s n i (rem + 1) u = vi :: t64_randomAux s n (i + 1) rem u2 := rfl
    have hinv2 : GenInv n (n - (i + 1)) u2 (prior ++ [vi]) := by
      have : n - (i + 1) = n - i - 1 := by omega
      rw [this]
      exact hinv'
    obtain ⟨ihlen, ihdec, ihnodup, ihroot, ihsing⟩ :=
      ih (i + 1) u2 (prior ++ [vi]) (by simp [hplen]) (by omega) hinv2
    set out := t64_randomAux s n (i + 1) rem u2 with hout_def
    have hvine : vi ≠ 0 := by
      obtain ⟨x, y, _, _, hd, hx0, hy0, hxy⟩ := hdecomp
      rw [hxy]
      exact lor_ne_zero_left hx0
    have hvinotpow : ∀ t, t < n → vi ≠ 2 ^ t := by
      intro t _
      obtain ⟨x, y, _, _, hd, hx0, hy0, hxy⟩ := hdecomp
      rw [hxy]
      exact lor_ne_two_pow hd hx0 hy0 t
    refine ⟨?_, ?_, ?_, ?_, ?_⟩
    · rw [hunf]
      simp [ihlen, hout_def]
    · intro idx hidx
      rw [hunf]
      match idx with
      | 0 =>
        obtain ⟨x, y, hx, hy, hd, hx0, hy0, hxy⟩ := hdecomp
        refine ⟨x, y, ?_, ?_, hd, hx0, hy0, by simpa using hxy⟩
        · rcases hx with h | h
          · exact Or.inl h
          · exact Or.inr (by simpa using h)
        · rcases hy with h | h
          · exact Or.inl h
          · exact Or.inr (by simpa using h)
      | idx' + 1 =>
        obtain ⟨x, y, hx, hy, hd, hx0, hy0, hxy⟩ := ihdec idx' (by omega)
        have hre : (prior ++ [vi]) ++ out.take idx' = prior ++ (vi :: out).take (idx' + 1) := by
          rw [List.take_succ_cons, List.append_assoc, List.singleton_append]
        refine ⟨x, y, ?_, ?_, hd, hx0, hy0, by simpa using hxy⟩
        · rcases hx with h | h
          · exact Or.inl h
          · exact Or.inr (by rw [← hre]; exact h)
        · rcases hy with h | h
          · exact Or.inl h
          · exact Or.inr (by rw [← hre]; exact h)
    · rw [hunf]
      have : prior ++ vi :: out = (prior ++ [vi]) ++ out := by
        rw [List.append_assoc, List.singleton_append]
      rw [this]
      exact ihnodup
    · intro _
      rw [hunf]
      by_cases h0 : rem = 0
      · rw [h0]
        simpa using hroot (hlast h0)
      · obtain ⟨rem', rfl⟩ : ∃ rem', rem = rem' + 1 := ⟨rem - 1, by omega⟩
        have h0' : (0 : Nat) < rem' + 1 := by omega
        simpa using ihroot h0'
    · intro e he
      rw [hunf] at he
      rcases List.mem_cons.mp he with rfl | he'
      · exact ⟨hvine, hvinotpow⟩
      · exact ihsing e he'

/-- Claim helper: the generator always produces a well-formed ranked
tree. -/
theorem t64_random_wf (n : Nat) (s : Nat → Nat) (hn2 : 2 ≤ n) :
    WellFormed n (t64_random s n) := by
  have hinv0 : GenInv n (n - 0) (fun t => 2 ^ t) [] := by
    refine ⟨?_, ?_, ?_, ?_, ?_, ?_, ?_, ?_⟩
    · intro k _
      exact (Nat.two_pow_pos k).ne'
    · intro k l _ _ hkl
      rw [land_eq_zero_iff]
      intro t ⟨h1, h2⟩
      rw [Nat.testBit_two_pow, decide_eq_true_eq] at h1 h2
      exact hkl (h1.trans h2.symm)
    · intro t ht
      refine ⟨t, by omega, ?_⟩
      exact Nat.testBit_two_pow_self
    · intro k hk
      exact Nat.pow_lt_pow_right (by norm_num) (by omega)
    · intro k hk
      exact Or.inl ⟨k, by omega, rfl⟩
    · intro e he
      exact absurd he (List.not_mem_nil e)
    · intro e he
      exact absurd he (List.not_mem_nil e)
    · exact List.nodup_nil
  obtain ⟨hlen, hdec, hnodup, hroot, hsing⟩ :=
    t64_randomAux_spec s (n - 1) 0 (fun t => 2 ^ t) [] rfl (by omega) hinv0
  have hfold : t64_randomAux s n 0 (n - 1) (fun t => 2 ^ t) = t64_random s n := rfl
  rw [hfold] at hlen hdec hnodup hroot hsing
  rw [List.nil_append] at hnodup
  refine ⟨hlen, ?_, ?_, ?_, ?_⟩
  · have h12 : n - 1 - 1 = n - 2 := by omega
    have := hroot (by omega)
    rwa [h12] at this
  · intro i hi
    obtain ⟨x, y, hx, hy, hd, hx0, hy0, hxy⟩ := hdec i hi
    rw [List.nil_append] at hx hy
    have hpiece : ∀ z, ((∃ t, t < n ∧ z = 2 ^ t) ∨
        z ∈ (t64_random s n).take i) → z ∈ pieces n (t64_random s n) i := by
      intro z hz
      rcases hz with ⟨t, ht, rfl⟩ | hz
      · exact List.mem_append.mpr (Or.inl (List.mem_map.mpr
          ⟨t, List.mem_range.mpr ht, rfl⟩))
      · exact List.mem_append.mpr (Or.inr hz)
    exact ⟨x, hpiece x hx, y, hpiece y hy, hd, hxy⟩
  · intro i hi t ht
    exact (hsing _ (getD_mem (by omega : i < (t64_random s n).length))).2 t ht
  · intro i hi j hj hij heq
    have hgi : (t64_random s n).getD i 0 = (t64_random s n).get ⟨i, by omega⟩ := by
      rw [List.getD_eq_getElem?_getD, List.getElem?_eq_getElem (by omega : i < (t64_random s n).length)]
      rfl
    have hgj : (t64_random s n).getD j 0 = (t64_random s n).get ⟨j, by omega⟩ := by
      rw [List.getD_eq_getElem?_getD, List.getElem?_eq_getElem (by omega : j < (t64_random s n).length)]
      rfl
    rw [hgi, hgj] at heq
    have hinj := List.nodup_iff_injective_get.mp hnodup heq
    exact hij (congrArg Fin.val hinj)

/-! ### Claim theorems -/

/-- C1: refuted on the code (evaluation at the failing input).  In the
nested case with `popcount(u) > 2` the child scan starts at rank `r-1`
itself, where `T1[r-1] = u` satisfies `(u & x) == x` immediately, so
the selected `x` is `u` itself — never a strict subset found at a rank
strictly below `r-1`.  Concretely, running the distance computation on
the well-formed trees `T = [3, 7, 15]`, `R = [3, 12, 15]` (n = 4)
reaches the nested branch at `r = 2` with working copy `[3, 7, 15]`
and `u = 7` (three leaves); the scan returns `x = 7 = u`, and the move
writes `w = 8`, a singleton leaf mask, into rank 1 — whereas a strict
subset child `x = 3` would give `12`. -/
theorem c1_child_scan_selects_u_itself :
    WellFormed 4 [3, 7, 15] ∧ WellFormed 4 [3, 12, 15] ∧
    findx [3, 7, 15] 7 2 = some 7 ∧
    popcount64 7 = 3 ∧
    t64_move 12 2 [3, 7, 15] = some [3, 8, 15] ∧
    t64_rnni_distance 4 [3, 7, 15] [3, 12, 15] = some 1 :=
  ⟨by decide, by decide, by decide, by decide, by decide, by decide⟩

/-- C2: for every leaf count `2 ≤ n ≤ 64` and every random stream, the
generator produces a sequence satisfying all four RankedTree
invariants. -/
theorem c2_generator_wellformed (n : Nat) (s : Nat → Nat) (h2 : 2 ≤ n)
    (_h64 : n ≤ 64) : WellFormed n (t64_random s n) :=
  t64_random_wf n s h2

/-- Witness for C2 at `n = 4` and a concrete stream. -/
theorem c2_generator_wellformed_witness :
    2 ≤ 4 ∧ 4 ≤ 64 ∧ WellFormed 4 (t64_random (fun k => k * k + 1) 4) :=
  ⟨by decide, by decide,
    c2_generator_wellformed 4 (fun k => k * k + 1) (by decide) (by decide)⟩

/-- C3: the distance from a well-formed tree to itself is zero: every
outer rank scan finds its own rank, so no move is ever performed. -/
theorem c3_self_distance (n : Nat) (T : List Nat) (h2 : 2 ≤ n)
    (_h64 : n ≤ 64) (hwf : WellFormed n T) :
    t64_rnni_distance n T T = some 0 := by
  unfold t64_rnni_distance
  have htake : T.take (n - 1) = T := by
    rw [← hwf.1]
    exact List.take_length T
  rw [htake, outerLoop_self hwf h2 (n - 1) 0 (Nat.le_refl _)]

/-- Witness for C3 at a concrete well-formed tree. -/
theorem c3_self_distance_witness :
    2 ≤ 4 ∧ 4 ≤ 64 ∧ WellFormed 4 [3, 7, 15] ∧
    t64_rnni_distance 4 [3, 7, 15] [3, 7, 15] = some 0 :=
  ⟨by decide, by decide, by decide,
    c3_self_distance 4 [3, 7, 15] (by decide) (by decide) (by decide)⟩

/-- C4: `rank` returns the smallest index whose entry contains the
probed mask, and on a well-formed tree this first match is the unique
minimal ancestor-or-equal: its mask is contained in the mask of every
other match. -/
theorem c4_rank_minimal (n : Nat) (v : List Nat) (x i : Nat) (h2 : 2 ≤ n)
    (_h64 : n ≤ 64) (hwf : WellFormed n v) (hx : x ≠ 0)
    (hr : rank n v x = some i) :
    (i < n - 1 ∧ v.getD i 0 &&& x = x ∧
      ∀ j < i, ¬(v.getD j 0 &&& x = x)) ∧
    (∀ j < n - 1, v.getD j 0 &&& x = x →
      Sub (v.getD i 0) (v.getD j 0)) := by
  obtain ⟨hi, hmatch, hmin⟩ := rank_eq_some hr
  refine ⟨⟨hi, hmatch, hmin⟩, ?_⟩
  intro j hj hmj
  rcases wf_laminar hwf h2 hi hj with h | h | h
  · exact h
  · have hji : j ≤ i := wf_mono hwf h2 hj hi h
    rcases Nat.eq_or_lt_of_le hji with rfl | hlt
    · exact sub_refl _
    · exact absurd hmj (hmin j hlt)
  · exfalso
    have h1 : Sub x (v.getD i 0) := hmatch
    have h2' : Sub x (v.getD j 0) := hmj
    have h3 := sub_land h1 h2'
    rw [h] at h3
    exact hx (sub_zero_right h3)

/-- Witness for C4 at a concrete tree and probe mask. -/
theorem c4_rank_minimal_witness :
    2 ≤ 4 ∧ 4 ≤ 64 ∧ WellFormed 4 [3, 12, 15] ∧ (4 : Nat) ≠ 0 ∧
    rank 4 [3, 12, 15] 4 = some 1 ∧
    ((1 < 4 - 1 ∧ ([3, 12, 15] : List Nat).getD 1 0 &&& 4 = 4 ∧
        ∀ j < 1, ¬(([3, 12, 15] : List Nat).getD j 0 &&& 4 = 4)) ∧
      (∀ j < 4 - 1, ([3, 12, 15] : List Nat).getD j 0 &&& 4 = 4 →
        Sub (([3, 12, 15] : List Nat).getD 1 0) (([3, 12, 15] : List Nat).getD j 0))) :=
  ⟨by decide, by decide, by decide, by decide, by decide,
    c4_rank_minimal 4 [3, 12, 15] 4 1 (by decide) (by decide) (by decide)
      (by decide) (by decide)⟩

/-- C5: refuted on the code (evaluation at the failing input): the
implemented distance is not symmetric.  On the well-formed trees
`[3, 7, 15]` and `[5, 10, 15]` (n = 4) it returns 3 one way and 2 the
other. -/
theorem c5_asymmetry :
    WellFormed 4 [3, 7, 15] ∧ WellFormed 4 [5, 10, 15] ∧
    t64_rnni_distance 4 [3, 7, 15] [5, 10, 15] = some 3 ∧
    t64_rnni_distance 4 [5, 10, 15] [3, 7, 15] = some 2 :=
  ⟨by decide, by decide, by decide, by decide⟩

/-- C6: when no entry contains the probed mask, `rank` takes the fatal
branch (returns no index), and an outer-loop step of the distance
computation probing that mask likewise ends in the fatal path rather
than returning a value. -/
theorem c6_rank_fatal (n : Nat) (v : List Nat) (x : Nat)
    (h : ∀ j < n - 1, ¬(v.getD j 0 &&& x = x)) :
    rank n v x = none ∧
    ∀ R d c, 0 < c → R.getD (c - 1) 0 = x → outerLoop n R c v d = none := by
  refine ⟨rank_eq_none_of_no_match h, ?_⟩
  intro R d c hc hR
  obtain ⟨c', rfl⟩ : ∃ c', c = c' + 1 := ⟨c - 1, by omega⟩
  have hR' : R.getD c' 0 = x := by simpa using hR
  simp only [outerLoop, hR', rank_eq_none_of_no_match h]

/-- Witness for C6: the mask 1 has no ancestor in the degenerate tree
`[2]` with two leaves. -/
theorem c6_rank_fatal_witness :
    (∀ j < 2 - 1, ¬(([2] : List Nat).getD j 0 &&& 1 = 1)) ∧
    rank 2 [2] 1 = none ∧ outerLoop 2 [1] 1 [2] 0 = none :=
  ⟨by decide, (c6_rank_fatal 2 [2] 1 (by decide)).1,
    (c6_rank_fatal 2 [2] 1 (by decide)).2 [1] 0 1 (by decide) (by decide)⟩

/-- C7: every elementary move leaves all working-copy entries outside
ranks `r` and `r - 1` unchanged, and in the nested case the entry at
rank `r` is also unchanged. -/
theorem c7_move_frame (Ri r : Nat) (T1 T1' : List Nat) (hr : 0 < r)
    (h : t64_move Ri r T1 = some T1') :
    (∀ k, k ≠ r → k ≠ r - 1 → T1'.getD k 0 = T1.getD k 0) ∧
    (T1.getD r 0 &&& T1.getD (r - 1) 0 ≠ 0 → T1'.getD r 0 = T1.getD r 0) :=
  move_frame hr h

/-- Witness for C7 at a concrete nested move. -/
theorem c7_move_frame_witness :
    0 < 1 ∧ t64_move 12 1 [3, 15] = some [14, 15] ∧
    ((∀ k, k ≠ 1 → k ≠ 1 - 1 →
        ([14, 15] : List Nat).getD k 0 = ([3, 15] : List Nat).getD k 0) ∧
      (([3, 15] : List Nat).getD 1 0 &&& ([3, 15] : List Nat).getD (1 - 1) 0 ≠ 0 →
        ([14, 15] : List Nat).getD 1 0 = ([3, 15] : List Nat).getD 1 0)) :=
  ⟨by decide, by decide,
    c7_move_frame 12 1 [3, 15] [14, 15] (by decide) (by decide)⟩

/-- C8: termination of the move loop: with fuel `r - i` the
`while (r > i)` loop always exits (each iteration decreases `r` by
exactly one), and a normal exit has incremented the move counter
exactly `r - i` times.  The outer loop is structurally a countdown
over `i = n-2, ..., 0`, visiting each rank once. -/
theorem c8_termination (Ri i fuel r : Nat) (T1 : List Nat) (d : Nat)
    (hfuel : r - i ≤ fuel) :
    innerF Ri i fuel r T1 d ≠ none ∧
    ∀ T1' d', innerF Ri i fuel r T1 d = some (some (T1', d')) →
      d' = d + (r - i) :=
  innerF_complete Ri i fuel r T1 d hfuel

/-- Witness for C8 at a concrete loop state. -/
theorem c8_termination_witness :
    1 - 0 ≤ 1 ∧
    (innerF 12 0 1 1 [3, 15] 0 ≠ none ∧
      ∀ T1' d', innerF 12 0 1 1 [3, 15] 0 = some (some (T1', d')) →
        d' = 0 + (1 - 0)) :=
  ⟨by decide, c8_termination 12 0 1 1 [3, 15] 0 (by decide)⟩

/-- C9: any value returned by the distance computation is bounded by
`(n-1)(n-2)/2`: the outer step at rank `i` performs at most
`n - 2 - i` moves. -/
theorem c9_distance_bound (n : Nat) (T R : List Nat) (d : Nat) (h2 : 2 ≤ n)
    (_h64 : n ≤ 64) (_hT : WellFormed n T) (_hR : WellFormed n R)
    (h : t64_rnni_distance n T R = some d) :
    d ≤ (n - 1) * (n - 2) / 2 := by
  unfold t64_rnni_distance at h
  rcases houter : outerLoop n R (n - 1) (T.take (n - 1)) 0 with _ | ⟨T1', d0⟩
  · rw [houter] at h
    exact Option.noConfusion h
  · rw [houter] at h
    obtain rfl : d0 = d := Option.some.inj h
    have hle := outerLoop_d_le (n - 1) (T.take (n - 1)) 0 T1' d0 houter
    have hsum1 : ∑ i ∈ Finset.range (n - 1), (n - 2 - i) =
        ∑ i ∈ Finset.range (n - 1), (n - 1 - 1 - i) := by
      apply Finset.sum_congr rfl
      intro j hj
      have := Finset.mem_range.mp hj
      omega
    have hsum2 : ∑ i ∈ Finset.range (n - 1), (n - 1 - 1 - i) =
        ∑ i ∈ Finset.range (n - 1), i :=
      Finset.sum_range_reflect (fun i => i) (n - 1)
    have hsum3 : ∑ i ∈ Finset.range (n - 1), i = (n - 1) * (n - 1 - 1) / 2 :=
      Finset.sum_range_id (n - 1)
    have h12 : n - 1 - 1 = n - 2 := by omega
    rw [hsum1, hsum2, hsum3, h12] at hle
    omega

/-- Witness for C9 at a concrete well-formed pair realising the bound
`(4-1)(4-2)/2 = 3`. -/
theorem c9_distance_bound_witness :
    2 ≤ 4 ∧ 4 ≤ 64 ∧ WellFormed 4 [3, 7, 15] ∧ WellFormed 4 [5, 10, 15] ∧
    t64_rnni_distance 4 [3, 7, 15] [5, 10, 15] = some 3 ∧
    3 ≤ (4 - 1) * (4 - 2) / 2 :=
  ⟨by decide, by decide, by decide, by decide, by decide,
    c9_distance_bound 4 [3, 7, 15] [5, 10, 15] 3 (by decide) (by decide)
      (by decide) (by decide) (by decide)⟩

/-- C10: probing the empty mask never reaches the fatal branch:
`(v[0] & 0) == 0` holds unconditionally, so `rank` silently returns
index 0 for any tree array whenever `n ≥ 2`. -/
theorem c10_rank_zero_mask (n : Nat) (v : List Nat) (h : 2 ≤ n) :
    rank n v 0 = some 0 := by
  apply rank_of_first (by omega) (Nat.and_zero _)
  intro j hj
  exact absurd hj (Nat.not_lt_zero j)

/-- Witness for C10 at a concrete array. -/
theorem c10_rank_zero_mask_witness :
    2 ≤ 2 ∧ rank 2 [2] 0 = some 0 :=
  ⟨by decide, c10_rank_zero_mask 2 [2] (by decide)⟩

end Tree64
